import Mathlib

/-!
Verification of the labpulse dependency-and-scheduling module.

The repository stores calendar dates as ISO `YYYY-MM-DD` strings and
manipulates them through date-fns (`parseISO`, `format`, `startOfWeek`,
`addWeeks`, `differenceInWeeks`).  All of those operations factor through
the number of days since the Unix epoch, so the embedding represents a
parsed date as its epoch-day number (an `Int`; day 0 = 1970-01-01, a
Thursday).  `daysFromCivil` is the standard civil-calendar conversion and
plays the role of `parseISO` on the concrete date literals that appear in
the claims; `format` is the identity in this representation.

Tasks, experiments and plan entries are embedded as records mirroring
`src/types.ts`, with `weekId`/`startDate`/`endDate` fields carried as
epoch days.
-/

namespace LabPulse

/-- Epoch-day number of the civil date `y-m-d` (proleptic Gregorian
calendar, Howard Hinnant's `days_from_civil` algorithm).  This is the
model of date-fns `parseISO` applied to a `YYYY-MM-DD` literal. -/
def daysFromCivil (y m d : Int) : Int :=
  let y' : Int := if m ≤ 2 then y - 1 else y
  let era : Int := Int.fdiv y' 400
  let yoe : Int := y' - era * 400
  let mp : Int := (m + 9) % 12
  let doy : Int := (153 * mp + 2) / 5 + d - 1
  let doe : Int := yoe * 365 + yoe / 4 - yoe / 100 + doy
  era * 146097 + doe - 719468

/-- Day of week of an epoch day, `0` = Sunday … `6` = Saturday
(epoch day 0 = 1970-01-01 is a Thursday, giving the `+ 4` shift).
This is the quantity date-fns `startOfWeek` with `weekStartsOn: 0`
subtracts from a date. -/
def dayOfWeek (e : Int) : Int := (e + 4) % 7

/-- Model of `startOfWeek(d, { weekStartsOn: 0 })`: the Sunday that starts
the week containing `e`. -/
def startOfWeekSunday (e : Int) : Int := e - dayOfWeek e

/-- `normalizeToSunday` from `utils` (src/unnamed/part_010 lines 6-9):
`format(startOfWeek(d, { weekStartsOn: 0 }), 'yyyy-MM-dd')`.  In the
epoch-day representation `format`/`parseISO` are the identity, so it is
exactly `startOfWeekSunday`. -/
def normalizeToSunday (e : Int) : Int := startOfWeekSunday e

/-- Model of date-fns `addWeeks`. -/
def addWeeks (e n : Int) : Int := e + 7 * n

/-- Model of date-fns `differenceInDays` on two dates at local midnight:
the calendar-day difference. -/
def differenceInDays (a b : Int) : Int := a - b

/-- Model of date-fns `differenceInWeeks(a, b)`: the day difference
divided by 7 and rounded toward zero (the library's default
`roundingMethod: 'trunc'`), i.e. JavaScript `Math.trunc`, i.e.
`Int.tdiv`. -/
def differenceInWeeks (a b : Int) : Int := Int.tdiv (differenceInDays a b) 7

/-- Week offset of `target` relative to `startDate` as computed by
`handleRowChange` (src/unnamed/part_004 line 373):
`differenceInWeeks(newDate, startDate)`. -/
def weekOffsetOf (startDate target : Int) : Int := differenceInWeeks target startDate

/-- Date of week-offset `n` relative to `startDate` as computed by
`handleRowChange` (src/unnamed/part_004 lines 362-366):
`normalizeToSunday(addWeeks(startDate, n))`. -/
def dateFromOffset (startDate n : Int) : Int := normalizeToSunday (addWeeks startDate n)

/-- Modelled from the spec: the canonical calendar-week difference of two
dates, "the integer number of whole weeks between the canonical week of
`startDate` and the canonical week of `targetDate`" — both dates are first
normalized to their week's Sunday and the (then exact) difference is
divided by 7.  This is the comparison point for claim C3; it is what
date-fns `differenceInCalendarWeeks` would compute, not what the code
calls. -/
def specCalendarWeekOffset (s t : Int) : Int :=
  (normalizeToSunday t - normalizeToSunday s) / 7

/-- The `Task` record of `src/types.ts`.  `weekId` is carried as an epoch
day (the parsed form of the stored `YYYY-MM-DD` string), `status` as its
raw string value, attachments by their ids. -/
structure Task where
  id : String
  experimentId : String
  title : String
  description : String
  weekId : Int
  status : String
  importance : Int
  completed : Bool
  tags : List String
  attachments : List String
  dependencies : List String
  recurrenceGroupId : Option String
  planTaskId : Option String
deriving DecidableEq, Repr

/-- The `Experiment` record of `src/types.ts` (the `originalPlan` and
`style` fields are carried opaquely; they play no role in the claims
below but are kept so that frame conditions talk about the whole
record). -/
structure Experiment where
  id : String
  name : String
  description : String
  collaborators : List String
  startDate : Int
  endDate : Option Int
  expectedWeeks : Int
  status : String
  attachments : List String
  proposalText : String
  originalPlan : Option (List String)
  style : Option String
deriving DecidableEq, Repr

/-- Helper: a Sunday-normalized date is a fixed point of
`normalizeToSunday`. -/
theorem normalizeToSunday_eq_self {e : Int} (h : dayOfWeek e = 0) :
    normalizeToSunday e = e := by
  unfold normalizeToSunday startOfWeekSunday
  omega

/-- Claim C8: `normalizeToSunday` returns the Sunday beginning the week
containing the given date (it is a Sunday, lies at most six days before
the input, in particular maps the Wednesday 2024-01-10 to the Sunday
2024-01-07), and it is idempotent. -/
theorem C8_normalizeToSunday_canonical :
    (∀ e : Int,
        dayOfWeek (normalizeToSunday e) = 0 ∧
        normalizeToSunday e ≤ e ∧ e < normalizeToSunday e + 7 ∧
        normalizeToSunday (normalizeToSunday e) = normalizeToSunday e) ∧
    normalizeToSunday (daysFromCivil 2024 1 10) = daysFromCivil 2024 1 7 := by
  constructor
  · intro e
    unfold normalizeToSunday startOfWeekSunday dayOfWeek
    omega
  · decide

/-- Claim C2 counterexample: for the non-Sunday start 2024-01-10 (a
Wednesday) and n = 1, the round trip
`weekOffsetOf(start, dateFromOffset(start, n))` returns 0, not 1, so the
round-trip law does not hold for every valid start date. -/
theorem C2_roundtrip_fails_nonsunday :
    weekOffsetOf (daysFromCivil 2024 1 10)
        (dateFromOffset (daysFromCivil 2024 1 10) 1) ≠ 1 := by
  decide

/-- Claim C2 (amended): for every Sunday-normalized start date (the
canonical form every stored `weekId`/`startDate` is kept in) and every
integer n, `weekOffsetOf(start, dateFromOffset(start, n)) = n`. -/
theorem C2_roundtrip_of_sunday (start n : Int) (h : dayOfWeek start = 0) :
    weekOffsetOf start (dateFromOffset start n) = n := by
  have hnorm : normalizeToSunday (addWeeks start n) = addWeeks start n := by
    apply normalizeToSunday_eq_self
    unfold dayOfWeek at h ⊢
    unfold addWeeks
    omega
  unfold weekOffsetOf dateFromOffset differenceInWeeks differenceInDays
  rw [hnorm]
  unfold addWeeks
  have : start + 7 * n - start = 7 * n := by ring
  rw [this]
  exact Int.mul_tdiv_cancel_left n (by norm_num)

/-- Witness for C2: the round trip at the Sunday 2024-01-07 with n = 5. -/
theorem C2_roundtrip_of_sunday_witness :
    dayOfWeek (daysFromCivil 2024 1 7) = 0 ∧
    weekOffsetOf (daysFromCivil 2024 1 7)
        (dateFromOffset (daysFromCivil 2024 1 7) 5) = 5 :=
  ⟨by decide, C2_roundtrip_of_sunday (daysFromCivil 2024 1 7) 5 (by decide)⟩

/-- Claim C3 counterexample: the Saturday 2024-01-13 and the Sunday
2024-01-14 lie one calendar week apart (their canonical weeks differ by
one), but the code's `weekOffsetOf` returns 0, not 1: it is a truncating
7-day difference, not a calendar-week difference. -/
theorem C3_weekOffset_not_calendar :
    weekOffsetOf (daysFromCivil 2024 1 13) (daysFromCivil 2024 1 14) = 0 ∧
    specCalendarWeekOffset (daysFromCivil 2024 1 13) (daysFromCivil 2024 1 14) = 1 := by
  constructor
  · decide
  · decide

/-- Claim C3 (amended): `weekOffsetOf` is the truncated 7-day difference
`trunc((target - start) / 7)`; it agrees with the canonical
calendar-week difference whenever both dates are Sunday-normalized (the
form in which the application stores every `weekId` and `startDate`). -/
theorem C3_weekOffset_eq_calendar_of_sunday (s t : Int)
    (hs : dayOfWeek s = 0) (ht : dayOfWeek t = 0) :
    weekOffsetOf s t = specCalendarWeekOffset s t := by
  have hdvd : ∃ k : Int, t - s = 7 * k := by
    unfold dayOfWeek at hs ht
    refine ⟨(t - s) / 7, ?_⟩
    omega
  obtain ⟨k, hk⟩ := hdvd
  unfold weekOffsetOf specCalendarWeekOffset differenceInWeeks differenceInDays
  rw [normalizeToSunday_eq_self hs, normalizeToSunday_eq_self ht, hk]
  rw [Int.mul_tdiv_cancel_left k (by norm_num)]
  omega

/-- Witness for C3: two Sundays three weeks apart. -/
theorem C3_weekOffset_eq_calendar_witness :
    dayOfWeek (daysFromCivil 2024 1 7) = 0 ∧
    dayOfWeek (daysFromCivil 2024 1 28) = 0 ∧
    weekOffsetOf (daysFromCivil 2024 1 7) (daysFromCivil 2024 1 28) =
      specCalendarWeekOffset (daysFromCivil 2024 1 7) (daysFromCivil 2024 1 28) :=
  ⟨by decide, by decide,
    C3_weekOffset_eq_calendar_of_sunday (daysFromCivil 2024 1 7)
      (daysFromCivil 2024 1 28) (by decide) (by decide)⟩

/-! ### Blocked-status derivation (claim C6) -/

/-- `isTaskBlocked` from `utils` (src/unnamed/part_010 lines 189-196):
returns `false` for an empty dependency list, otherwise `some` over the
dependency ids, resolving each id with `allTasks.find(t => t.id === depId)`
and treating an unresolved id as non-blocking. -/
def isTaskBlocked (task : Task) (allTasks : List Task) : Bool :=
  if task.dependencies.isEmpty then false
  else
    task.dependencies.any fun depId =>
      match allTasks.find? (fun t => t.id == depId) with
      | some depTask => !depTask.completed
      | none => false

/-- Resolution of one dependency id against a task list with pairwise
distinct ids: the code's first-match lookup blocks exactly when some task
with that id is present and incomplete. -/
theorem isTaskBlocked_resolve (allTasks : List Task) (depId : String)
    (hids : (allTasks.map Task.id).Nodup) :
    (match allTasks.find? (fun t => t.id == depId) with
      | some depTask => !depTask.completed
      | none => false) = true ↔
      ∃ t ∈ allTasks, t.id = depId ∧ t.completed = false := by
  cases hfind : allTasks.find? (fun t => t.id == depId) with
  | none =>
    simp only [Bool.false_eq_true, false_iff]
    rintro ⟨t, ht, hid, hc⟩
    have := List.find?_eq_none.mp hfind t ht
    simp [hid] at this
  | some u =>
    have hu : u ∈ allTasks := List.mem_of_find?_eq_some hfind
    have huid : u.id = depId := by simpa using List.find?_some hfind
    constructor
    · intro hc
      exact ⟨u, hu, huid, by simpa using hc⟩
    · rintro ⟨t, ht, htid, htc⟩
      have hut : u = t :=
        List.inj_on_of_nodup_map hids hu ht (by rw [huid, htid])
      rw [hut]
      simp [htc]

/-- Test fixture: a task with the given id, experiment, dependency list
and completion flag, all other fields at the application defaults. -/
def mkFixtureTask (id experimentId : String) (deps : List String) (completed : Bool) : Task :=
  ⟨id, experimentId, "", "", 0, "default", 3, completed, [], [], deps, none, none⟩

/-- Claim C6 counterexample: with two tasks sharing the id "a" (first
completed, second not), a task depending on "a" is reported unblocked by
`isTaskBlocked` — the lookup resolves to the first match — although a
task with that id that is present and incomplete exists, so the claimed
equivalence fails as stated for arbitrary task lists. -/
theorem C6_isTaskBlocked_iff_fails_duplicate_ids :
    ¬(isTaskBlocked (mkFixtureTask "t" "e" ["a"] false)
        [mkFixtureTask "a" "e" [] true, mkFixtureTask "a" "e" [] false] = true ↔
      (mkFixtureTask "t" "e" ["a"] false).dependencies ≠ [] ∧
        ∃ depId ∈ (mkFixtureTask "t" "e" ["a"] false).dependencies,
          ∃ t ∈ [mkFixtureTask "a" "e" [] true, mkFixtureTask "a" "e" [] false],
            t.id = depId ∧ t.completed = false) := by
  decide

/-- Claim C6 (amended): for every task list whose task ids are pairwise
distinct (the data-model invariant enforced on import), `isTaskBlocked`
returns true iff the dependency list is non-empty and at least one
dependency id resolves to a present, incomplete task; unresolved ids
never block. -/
theorem C6_isTaskBlocked_iff (task : Task) (allTasks : List Task)
    (hids : (allTasks.map Task.id).Nodup) :
    isTaskBlocked task allTasks = true ↔
      task.dependencies ≠ [] ∧
        ∃ depId ∈ task.dependencies,
          ∃ t ∈ allTasks, t.id = depId ∧ t.completed = false := by
  unfold isTaskBlocked
  by_cases hemp : task.dependencies.isEmpty
  · rw [if_pos hemp]
    have : task.dependencies = [] := by simpa using hemp
    simp [this]
  · rw [if_neg hemp]
    rw [List.any_eq_true]
    constructor
    · rintro ⟨depId, hdep, hmatch⟩
      refine ⟨by simpa using hemp, depId, hdep, ?_⟩
      exact (isTaskBlocked_resolve allTasks depId hids).mp hmatch
    · rintro ⟨-, depId, hdep, hres⟩
      exact ⟨depId, hdep, (isTaskBlocked_resolve allTasks depId hids).mpr hres⟩

/-- Witness for C6: a single incomplete dependency blocks its dependent. -/
theorem C6_isTaskBlocked_iff_witness :
    (([mkFixtureTask "a" "e" [] false].map Task.id).Nodup) ∧
    (isTaskBlocked (mkFixtureTask "t" "e" ["a"] false)
        [mkFixtureTask "a" "e" [] false] = true ↔
      (mkFixtureTask "t" "e" ["a"] false).dependencies ≠ [] ∧
        ∃ depId ∈ (mkFixtureTask "t" "e" ["a"] false).dependencies,
          ∃ t ∈ [mkFixtureTask "a" "e" [] false],
            t.id = depId ∧ t.completed = false) :=
  ⟨by decide,
    C6_isTaskBlocked_iff (mkFixtureTask "t" "e" ["a"] false)
      [mkFixtureTask "a" "e" [] false] (by decide)⟩

/-! ### Task deletion (claim C9) -/

/-- `handleDeleteTask` from `src/App.tsx` lines 386-406 (state update on
the task list): drop the deleted task, then strip its id from the
dependency list of every remaining task that contains it. -/
def deleteTask (tasks : List Task) (taskId : String) : List Task :=
  (tasks.filter fun t => t.id != taskId).map fun t =>
    if taskId ∈ t.dependencies then
      { t with dependencies := t.dependencies.filter fun d => d != taskId }
    else t

/-- Equality of every `Task` field except `dependencies`. -/
def SameExceptDeps (t u : Task) : Prop :=
  u.id = t.id ∧ u.experimentId = t.experimentId ∧ u.title = t.title ∧
  u.description = t.description ∧ u.weekId = t.weekId ∧ u.status = t.status ∧
  u.importance = t.importance ∧ u.completed = t.completed ∧ u.tags = t.tags ∧
  u.attachments = t.attachments ∧ u.recurrenceGroupId = t.recurrenceGroupId ∧
  u.planTaskId = t.planTaskId

/-- Helper: the per-task rewrite performed by `deleteTask` keeps every
field but `dependencies`, and leaves `dependencies` equal to the original
list with the deleted id filtered out. -/
theorem deleteTask_image (t : Task) (taskId : String) :
    SameExceptDeps t
        (if taskId ∈ t.dependencies then
          { t with dependencies := t.dependencies.filter fun d => d != taskId }
        else t) ∧
      (if taskId ∈ t.dependencies then
          { t with dependencies := t.dependencies.filter fun d => d != taskId }
        else t).dependencies = t.dependencies.filter fun d => d != taskId := by
  by_cases hmem : taskId ∈ t.dependencies
  · rw [if_pos hmem]
    exact ⟨⟨rfl, rfl, rfl, rfl, rfl, rfl, rfl, rfl, rfl, rfl, rfl, rfl⟩, rfl⟩
  · rw [if_neg hmem]
    refine ⟨⟨rfl, rfl, rfl, rfl, rfl, rfl, rfl, rfl, rfl, rfl, rfl, rfl⟩, ?_⟩
    refine (List.filter_eq_self.mpr ?_).symm
    intro d hd
    simp only [bne_iff_ne, ne_eq]
    rintro rfl
    exact hmem hd

/-- Claim C9: deleting task D removes every task with D's id, keeps every
other task (with all fields but `dependencies` unchanged), strips D's id
from every remaining dependency list, and introduces nothing new: the
result contains no task whose id is D's, no dangling reference to D, and
exactly the images of the surviving tasks. -/
theorem C9_deleteTask_no_dangling (tasks : List Task) (dId : String) :
    (∀ u ∈ deleteTask tasks dId, u.id ≠ dId) ∧
    (∀ u ∈ deleteTask tasks dId, dId ∉ u.dependencies) ∧
    (∀ t ∈ tasks, t.id ≠ dId →
      ∃ u ∈ deleteTask tasks dId, SameExceptDeps t u ∧
        u.dependencies = t.dependencies.filter fun d => d != dId) ∧
    (∀ u ∈ deleteTask tasks dId, ∃ t ∈ tasks, t.id ≠ dId ∧ SameExceptDeps t u ∧
        u.dependencies = t.dependencies.filter fun d => d != dId) := by
  refine ⟨?_, ?_, ?_, ?_⟩
  · intro u hu
    obtain ⟨t, ht, rfl⟩ := List.mem_map.mp hu
    obtain ⟨ht1, ht2⟩ := List.mem_filter.mp ht
    have hid : t.id ≠ dId := by simpa using ht2
    have := (deleteTask_image t dId).1.1
    rw [this]
    exact hid
  · intro u hu
    obtain ⟨t, ht, rfl⟩ := List.mem_map.mp hu
    rw [(deleteTask_image t dId).2]
    intro hmem
    have := List.of_mem_filter hmem
    simp at this
  · intro t ht hid
    refine ⟨_, List.mem_map_of_mem _ (List.mem_filter.mpr ⟨ht, by simpa using hid⟩), ?_, ?_⟩
    · exact (deleteTask_image t dId).1
    · exact (deleteTask_image t dId).2
  · intro u hu
    obtain ⟨t, ht, rfl⟩ := List.mem_map.mp hu
    obtain ⟨ht1, ht2⟩ := List.mem_filter.mp ht
    exact ⟨t, ht1, by simpa using ht2, (deleteTask_image t dId).1,
      (deleteTask_image t dId).2⟩

/-- Witness for C9: deleting "d" from a two-task list keeps the dependent
task "t" and strips the edge. -/
theorem C9_deleteTask_no_dangling_witness :
    ∃ u ∈ deleteTask [mkFixtureTask "t" "e" ["d"] false,
        mkFixtureTask "d" "e" [] false] "d",
      SameExceptDeps (mkFixtureTask "t" "e" ["d"] false) u ∧
        u.dependencies =
          (mkFixtureTask "t" "e" ["d"] false).dependencies.filter fun d => d != "d" :=
  (C9_deleteTask_no_dangling [mkFixtureTask "t" "e" ["d"] false,
      mkFixtureTask "d" "e" [] false] "d").2.2.1
    (mkFixtureTask "t" "e" ["d"] false) (by decide) (by decide)

/-! ### Bulk timeline shift (claim C7) -/

/-- Task update of `handleShiftExperimentTimeline` from `src/App.tsx`
lines 281-309 (identical code in src/unnamed/part_006 lines 548-576):
each task of the experiment that is not completed gets
`weekId := normalizeToSunday(addWeeks(parseISO(weekId), weeksToShift))`;
every other task is returned unchanged. -/
def shiftTasks (tasks : List Task) (experimentId : String) (weeksToShift : Int) :
    List Task :=
  tasks.map fun t =>
    if t.experimentId = experimentId ∧ t.completed = false then
      { t with weekId := normalizeToSunday (addWeeks t.weekId weeksToShift) }
    else t

/-- Experiment update of `handleShiftExperimentTimeline`: the matching
experiment gets its `endDate` (when present) shifted the same way; other
experiments are unchanged. -/
def shiftExperiments (experiments : List Experiment) (experimentId : String)
    (weeksToShift : Int) : List Experiment :=
  experiments.map fun e =>
    if e.id = experimentId then
      { e with endDate := e.endDate.map fun d => normalizeToSunday (addWeeks d weeksToShift) }
    else e

/-- Equality of every `Task` field except `weekId`. -/
def SameExceptWeekId (t u : Task) : Prop :=
  u.id = t.id ∧ u.experimentId = t.experimentId ∧ u.title = t.title ∧
  u.description = t.description ∧ u.status = t.status ∧
  u.importance = t.importance ∧ u.completed = t.completed ∧ u.tags = t.tags ∧
  u.attachments = t.attachments ∧ u.dependencies = t.dependencies ∧
  u.recurrenceGroupId = t.recurrenceGroupId ∧ u.planTaskId = t.planTaskId

/-- Equality of every `Experiment` field except `endDate`. -/
def SameExceptEndDate (e f : Experiment) : Prop :=
  f.id = e.id ∧ f.name = e.name ∧ f.description = e.description ∧
  f.collaborators = e.collaborators ∧ f.startDate = e.startDate ∧
  f.expectedWeeks = e.expectedWeeks ∧ f.status = e.status ∧
  f.attachments = e.attachments ∧ f.proposalText = e.proposalText ∧
  f.originalPlan = e.originalPlan ∧ f.style = e.style

/-- Claim C7: the timeline shift moves the week of exactly the incomplete
tasks of the given experiment by `delta` calendar weeks (leaving their
other fields unchanged), returns every completed task and every task of
another experiment entirely unchanged, shifts the experiment's `endDate`
(when present) by the same `delta` leaving its other fields unchanged,
and leaves every other experiment unchanged. -/
theorem C7_shiftTimeline_frame (tasks : List Task) (experiments : List Experiment)
    (experimentId : String) (delta : Int) :
    (shiftTasks tasks experimentId delta).length = tasks.length ∧
    (∀ i : Nat, ∀ t, tasks[i]? = some t →
      (t.experimentId = experimentId ∧ t.completed = false →
        ∃ u, (shiftTasks tasks experimentId delta)[i]? = some u ∧
          SameExceptWeekId t u ∧
          u.weekId = normalizeToSunday (addWeeks t.weekId delta)) ∧
      (¬(t.experimentId = experimentId ∧ t.completed = false) →
        (shiftTasks tasks experimentId delta)[i]? = some t)) ∧
    (shiftExperiments experiments experimentId delta).length = experiments.length ∧
    (∀ i : Nat, ∀ e, experiments[i]? = some e →
      (e.id = experimentId →
        ∃ f, (shiftExperiments experiments experimentId delta)[i]? = some f ∧
          SameExceptEndDate e f ∧
          f.endDate = e.endDate.map fun d => normalizeToSunday (addWeeks d delta)) ∧
      (e.id ≠ experimentId →
        (shiftExperiments experiments experimentId delta)[i]? = some e)) := by
  refine ⟨by simp [shiftTasks], ?_, by simp [shiftExperiments], ?_⟩
  · intro i t hit
    constructor
    · intro hcond
      refine ⟨{ t with weekId := normalizeToSunday (addWeeks t.weekId delta) },
        ?_, ⟨rfl, rfl, rfl, rfl, rfl, rfl, rfl, rfl, rfl, rfl, rfl, rfl⟩, rfl⟩
      unfold shiftTasks
      rw [List.getElem?_map, hit, Option.map_some', if_pos hcond]
    · intro hcond
      unfold shiftTasks
      rw [List.getElem?_map, hit, Option.map_some', if_neg hcond]
  · intro i e hie
    constructor
    · intro hcond
      refine ⟨{ e with endDate :=
          e.endDate.map (fun d => normalizeToSunday (addWeeks d delta)) },
        ?_, ⟨rfl, rfl, rfl, rfl, rfl, rfl, rfl, rfl, rfl, rfl, rfl⟩, rfl⟩
      unfold shiftExperiments
      rw [List.getElem?_map, hie, Option.map_some', if_pos hcond]
    · intro hcond
      unfold shiftExperiments
      rw [List.getElem?_map, hie, Option.map_some', if_neg hcond]

/-- Test fixture: an experiment with the given id and end date. -/
def mkFixtureExperiment (id : String) (endDate : Option Int) : Experiment :=
  ⟨id, "", "", [], 0, endDate, 4, "active", [], "", none, none⟩

/-- Witness for C7: shifting a one-task, one-experiment state by one week
moves the incomplete task's week. -/
theorem C7_shiftTimeline_frame_witness :
    ∃ u, (shiftTasks [mkFixtureTask "t" "e" [] false] "e" 1)[0]? = some u ∧
      SameExceptWeekId (mkFixtureTask "t" "e" [] false) u ∧
      u.weekId = normalizeToSunday (addWeeks (mkFixtureTask "t" "e" [] false).weekId 1) :=
  (((C7_shiftTimeline_frame [mkFixtureTask "t" "e" [] false]
      [mkFixtureExperiment "e" none] "e" 1).2.1 0
    (mkFixtureTask "t" "e" [] false) (by decide)).1 (by decide))

/-! ### Plan expansion with recurrence (claims C4 and C5) -/

/-- The fields of an `EditableTask` plan draft that the bulk-generation
loop in `handleFinish` (src/unnamed/part_003 lines 551-594) reads. -/
structure PlanDraft where
  id : String
  title : String
  description : String
  weekOffset : Int
  importance : Int
  status : String
deriving DecidableEq, Repr

/-- One iteration's emitted task in the recurrence loop of
`handleFinish`: `w` is the loop variable, `count` the 0-based occurrence
index (`generateUUID()` is modelled by the id supply `gen` indexed by
`count`). -/
def recurrenceInstance (gen : Nat → String) (experimentId : String)
    (startDate : Int) (draft : PlanDraft) (groupId : String)
    (w : Int) (count : Nat) : Task :=
  { id := gen count, experimentId := experimentId,
    title := draft.title ++ " (" ++ toString (count + 1) ++ ")",
    description := draft.description,
    weekId := normalizeToSunday (addWeeks startDate (draft.weekOffset + w)),
    status := draft.status, importance := draft.importance,
    completed := false, tags := [], attachments := [], dependencies := [],
    recurrenceGroupId := some groupId, planTaskId := some draft.id }

/-- The recurrence loop of `handleFinish`:
`for (let w = 0; w < durationWeeks; w += intervalWeeks) { push(...); count++ }`.
The source loop has no iteration bound; the `fuel` argument only makes the
model total, and the lemmas below show it plays no role whenever
`intervalWeeks ≥ 1` (C5) and that for `intervalWeeks = 0` every amount of
fuel is consumed without ever reaching the exit test (C4: the source loop
does not terminate). -/
def recurTasks (gen : Nat → String) (experimentId : String) (startDate : Int)
    (draft : PlanDraft) (intervalWeeks durationWeeks : Int) (groupId : String) :
    Nat → Int → Nat → List Task
  | 0, _, _ => []
  | fuel + 1, w, count =>
    if w < durationWeeks then
      recurrenceInstance gen experimentId startDate draft groupId w count ::
        recurTasks gen experimentId startDate draft intervalWeeks durationWeeks
          groupId fuel (w + intervalWeeks) (count + 1)
    else []

/-- Recurrence expansion of one plan entry: the loop started at
`w = 0, count = 0`, with fuel `durationWeeks + 1` (sufficient whenever
`intervalWeeks ≥ 1`, because then at most `durationWeeks` iterations can
pass the `w < durationWeeks` test). -/
def expandRecurrence (gen : Nat → String) (experimentId : String)
    (startDate : Int) (draft : PlanDraft)
    (intervalWeeks durationWeeks : Int) (groupId : String) : List Task :=
  recurTasks gen experimentId startDate draft intervalWeeks durationWeeks
    groupId (durationWeeks.toNat + 1) 0 0

/-- The number of instances the spec attributes to a recurrence
descriptor: the ceiling of `durationWeeks / intervalWeeks` (exact for
`intervalWeeks ≥ 1`). -/
def recurrenceCount (intervalWeeks durationWeeks : Int) : Int :=
  (durationWeeks + intervalWeeks - 1) / intervalWeeks

/-- For a positive interval, iteration `j` (at loop variable
`w = j * intervalWeeks`) passes the loop test exactly when `j` is below
the ceiling count. -/
theorem recurrence_iter_lt {i : Int} (d : Int) (hi : 1 ≤ i) (j : Int) :
    j * i < d ↔ j < recurrenceCount i d := by
  unfold recurrenceCount
  have e : (j + 1) * i = j * i + i := by ring
  constructor
  · intro h
    rw [Int.lt_iff_add_one_le, Int.le_ediv_iff_mul_le (by omega), e]
    omega
  · intro h
    rw [Int.lt_iff_add_one_le, Int.le_ediv_iff_mul_le (by omega), e] at h
    omega

/-- Claim C4: with `intervalWeeks = 0` (and `durationWeeks = 1`) the
recurrence loop never reaches a state failing its continuation test
`w < durationWeeks`: the loop variable stays at 0, every unit of fuel
produces one more emitted instance, so the unbounded source loop runs
forever and no `InvalidRecurrence` error is ever reported (none exists in
the code). -/
theorem C4_recurrence_loop_diverges_on_zero_interval
    (gen : Nat → String) (experimentId : String) (startDate : Int)
    (draft : PlanDraft) (groupId : String) :
    ∀ (fuel count : Nat),
      (recurTasks gen experimentId startDate draft 0 1 groupId
        fuel 0 count).length = fuel := by
  intro fuel
  induction fuel with
  | zero => intro count; rfl
  | succ n ih =>
    intro count
    show (recurTasks gen experimentId startDate draft 0 1 groupId
      (n + 1) 0 count).length = n + 1
    rw [recurTasks]
    rw [if_pos (by norm_num)]
    simp only [List.length_cons]
    have h0 : (0 : Int) + 0 = 0 := by norm_num
    rw [h0, ih (count + 1)]

/-- For a positive interval, the ceiling count never exceeds
`durationWeeks.toNat + 1`, the fuel given to the loop model. -/
theorem recurrenceCount_toNat_le (i d : Int) (hi : 1 ≤ i) :
    (recurrenceCount i d).toNat ≤ d.toNat + 1 := by
  rcases le_or_lt d 0 with hd | hd
  · have h1 : ¬ (1 ≤ recurrenceCount i d) := by
      unfold recurrenceCount
      rw [Int.le_ediv_iff_mul_le (by omega)]
      omega
    omega
  · have hdc : recurrenceCount i d ≤ d := by
      by_contra hgt
      push_neg at hgt
      unfold recurrenceCount at hgt
      rw [Int.lt_iff_add_one_le, Int.le_ediv_iff_mul_le (by omega)] at hgt
      have e : (d + 1) * i = d * i + i := by ring
      rw [e] at hgt
      have hmul : d * 1 ≤ d * i := mul_le_mul_of_nonneg_left hi (by omega)
      omega
    omega

/-- Closed form of the recurrence loop for a positive interval: started
at iteration `j` (loop variable `j * intervalWeeks`, occurrence counter
`j`) with enough fuel, it emits exactly the remaining
`recurrenceCount - j` instances, the k-th at loop variable
`(j + k) * intervalWeeks`. -/
theorem recurTasks_closed_form (gen : Nat → String) (eid : String)
    (start : Int) (draft : PlanDraft) (i d : Int) (grp : String)
    (hi : 1 ≤ i) :
    ∀ (fuel j : Nat), (recurrenceCount i d).toNat - j ≤ fuel →
      recurTasks gen eid start draft i d grp fuel ((j : Int) * i) j =
        (List.range ((recurrenceCount i d).toNat - j)).map
          (fun k => recurrenceInstance gen eid start draft grp
            (((j + k : Nat) : Int) * i) (j + k)) := by
  intro fuel
  induction fuel with
  | zero =>
    intro j hj
    have h0 : (recurrenceCount i d).toNat - j = 0 := by omega
    rw [h0]
    rfl
  | succ n ih =>
    intro j hj
    by_cases hlt : ((j : Int) * i) < d
    · have hjc : (j : Int) < recurrenceCount i d := (recurrence_iter_lt d hi _).mp hlt
      have hjN : j < (recurrenceCount i d).toNat := Int.lt_toNat.mpr hjc
      have hm : (recurrenceCount i d).toNat - j = ((recurrenceCount i d).toNat - (j + 1)) + 1 := by
        omega
      have hcast : ((j : Int) * i) + i = (((j + 1 : Nat)) : Int) * i := by
        push_cast
        ring
      rw [recurTasks, if_pos hlt, hm, List.range_succ_eq_map, List.map_cons,
        List.map_map, hcast, ih (j + 1) (by omega)]
      congr 1
      symm
      apply List.map_congr_left
      intro k hk
      simp only [Function.comp_apply, Nat.succ_eq_add_one]
      have harg : j + (k + 1) = (j + 1) + k := by omega
      rw [harg]
    · have hjc : ¬ ((j : Int) < recurrenceCount i d) := by
        intro hc
        exact hlt ((recurrence_iter_lt d hi _).mpr hc)
      have hjN : ¬ j < (recurrenceCount i d).toNat := by
        intro hc
        exact hjc (Int.lt_toNat.mp hc)
      have h0 : (recurrenceCount i d).toNat - j = 0 := by omega
      rw [recurTasks, if_neg hlt, h0]
      rfl

/-- Claim C5 (amended): for `intervalWeeks ≥ 1` the expansion of a
recurring plan entry is exactly the list of `max(0, ceil(durationWeeks /
intervalWeeks))` instances, the k-th (0-based) emitted at loop offset
`k * intervalWeeks` — that is, week offset `weekOffset + k *
intervalWeeks` — with a 1-based occurrence counter in its title; an
offset is emitted exactly when it is strictly below `durationWeeks`; and
every emitted instance shares the one `groupId`, carries `planTaskId` of
the entry, `completed = false` and empty `dependencies`.  (As stated the
claim promises `ceil(durationWeeks / intervalWeeks)` instances even for
negative `durationWeeks`, where the ceiling is negative but the loop
correctly emits nothing — hence the `max(0, ·)`, i.e. `Int.toNat`.) -/
theorem C5_expandRecurrence_characterization (gen : Nat → String)
    (experimentId : String) (startDate : Int) (draft : PlanDraft)
    (intervalWeeks durationWeeks : Int) (groupId : String)
    (hi : 1 ≤ intervalWeeks) :
    expandRecurrence gen experimentId startDate draft intervalWeeks
        durationWeeks groupId =
      (List.range (recurrenceCount intervalWeeks durationWeeks).toNat).map
        (fun (k : Nat) => recurrenceInstance gen experimentId startDate draft groupId
          ((k : Int) * intervalWeeks) k) ∧
    (∀ k : Nat, ((k : Int) * intervalWeeks < durationWeeks ↔
      k < (recurrenceCount intervalWeeks durationWeeks).toNat)) ∧
    (∀ t ∈ expandRecurrence gen experimentId startDate draft intervalWeeks
        durationWeeks groupId,
      t.recurrenceGroupId = some groupId ∧ t.planTaskId = some draft.id ∧
        t.completed = false ∧ t.dependencies = []) := by
  have hmain :
      expandRecurrence gen experimentId startDate draft intervalWeeks
          durationWeeks groupId =
        (List.range (recurrenceCount intervalWeeks durationWeeks).toNat).map
          (fun (k : Nat) => recurrenceInstance gen experimentId startDate draft groupId
            ((k : Int) * intervalWeeks) k) := by
    unfold expandRecurrence
    have h0 : ((0 : Nat) : Int) * intervalWeeks = 0 := by norm_num
    have := recurTasks_closed_form gen experimentId startDate draft
      intervalWeeks durationWeeks groupId hi (durationWeeks.toNat + 1) 0
      (by have := recurrenceCount_toNat_le intervalWeeks durationWeeks hi; omega)
    rw [h0] at this
    rw [this, Nat.sub_zero]
    apply List.map_congr_left
    intro k hk
    rw [Nat.zero_add]
  refine ⟨hmain, ?_, ?_⟩
  · intro k
    constructor
    · intro h
      exact Int.lt_toNat.mpr ((recurrence_iter_lt durationWeeks hi _).mp h)
    · intro h
      exact (recurrence_iter_lt durationWeeks hi _).mpr (Int.lt_toNat.mp h)
  · intro t ht
    rw [hmain] at ht
    obtain ⟨k, hk, rfl⟩ := List.mem_map.mp ht
    exact ⟨rfl, rfl, rfl, rfl⟩

/-- Witness for C5: the spec's own example — an entry with
`{intervalWeeks: 2, durationWeeks: 5}` expands to exactly
`ceil(5 / 2) = 3` instances. -/
theorem C5_expandRecurrence_witness :
    (expandRecurrence (fun n => toString n) "e" 0
      ⟨"p", "T", "", 2, 3, "default"⟩ 2 5 "g").length = 3 := by
  rw [(C5_expandRecurrence_characterization (fun n => toString n) "e" 0
    ⟨"p", "T", "", 2, 3, "default"⟩ 2 5 "g" (by norm_num)).1]
  simp only [List.length_map, List.length_range]
  decide

/-- Claim C5 counterexample: with `intervalWeeks = 1` and
`durationWeeks = -1` the loop emits no instance at all, while the claim
as stated promises exactly `ceil(-1 / 1) = -1` instances — impossible for
a count — so the claim fails for negative `durationWeeks`. -/
theorem C5_count_fails_negative_duration :
    expandRecurrence (fun n => toString n) "e" 0
        ⟨"p", "T", "", 0, 3, "default"⟩ 1 (-1) "g" = [] ∧
    recurrenceCount 1 (-1) = -1 := by
  constructor
  · rfl
  · decide

/-! ### Import validation and migration (claim C10) -/

/-- Raw (untrusted) experiment record as read from an imported JSON
object, input to `validateAndMigrateAppData` (src/unnamed/part_010 lines
74-145).  `none` models an absent/falsy field (for string fields) or a
non-array value (for array fields). -/
structure RawExperiment where
  id : Option String
  name : Option String
  description : Option String
  collaborators : Option (List String)
  startDate : Option Int
  endDate : Option Int
  expectedWeeks : Option Int
  status : Option String
  attachments : Option (List String)
  proposalText : Option String
  originalPlan : Option (List String)
  style : Option String
deriving DecidableEq, Repr

/-- Raw (untrusted) task record as read from an imported JSON object.
`completed` is already the JavaScript coercion `!!t.completed`. -/
structure RawTask where
  id : Option String
  experimentId : Option String
  title : Option String
  description : Option String
  weekId : Option Int
  status : Option String
  importance : Option Int
  completed : Bool
  tags : Option (List String)
  attachments : Option (List String)
  dependencies : Option (List String)
  recurrenceGroupId : Option String
  planTaskId : Option String
deriving DecidableEq, Repr

/-- The experiment-sanitization pass of `validateAndMigrateAppData`:
each raw experiment gets an id (its own, or a generated one — the impure
`generateUUID()` is modelled by the supply `gen` with a running counter),
defaulted fields, and status clamped to active/archived.  Returns the
cleaned list and the next counter value. -/
def cleanExperiments (gen : Nat → String) (today : Int) :
    List RawExperiment → Nat → List Experiment × Nat
  | [], c => ([], c)
  | e :: rest, c =>
    let idc : String × Nat :=
      match e.id with
      | some s => (s, c)
      | none => (gen c, c + 1)
    let cleaned : Experiment :=
      { id := idc.1, name := e.name.getD "Untitled Experiment",
        description := e.description.getD "",
        collaborators := e.collaborators.getD [],
        startDate := e.startDate.getD (normalizeToSunday today),
        endDate := e.endDate,
        expectedWeeks := e.expectedWeeks.getD 4,
        status := if e.status = some "archived" then "archived" else "active",
        attachments := e.attachments.getD [],
        proposalText := e.proposalText.getD "",
        originalPlan := e.originalPlan, style := e.style }
    let restClean := cleanExperiments gen today rest idc.2
    (cleaned :: restClean.1, restClean.2)

/-- The task-sanitization `reduce` of `validateAndMigrateAppData`: give
the task an id, drop it if that id was already processed (the id is
recorded in `processed` as soon as it survives the duplicate check,
before the orphan check, exactly as in the source), drop it if its
`experimentId` is not a known experiment id, otherwise emit the
sanitized task. -/
def cleanTasks (gen : Nat → String) (today : Int) (validExpIds : List String) :
    List RawTask → Nat → List String → List Task
  | [], _, _ => []
  | t :: rest, c, processed =>
    let idc : String × Nat :=
      match t.id with
      | some s => (s, c)
      | none => (gen c, c + 1)
    if idc.1 ∈ processed then
      cleanTasks gen today validExpIds rest idc.2 processed
    else
      match t.experimentId with
      | some eId =>
        if eId ∈ validExpIds then
          { id := idc.1, experimentId := eId,
            title := t.title.getD "Untitled Task",
            description := t.description.getD "",
            weekId := t.weekId.getD (normalizeToSunday today),
            status := t.status.getD "default",
            importance := t.importance.getD 3,
            completed := t.completed,
            tags := t.tags.getD [], attachments := t.attachments.getD [],
            dependencies := t.dependencies.getD [],
            recurrenceGroupId := t.recurrenceGroupId,
            planTaskId := t.planTaskId } ::
            cleanTasks gen today validExpIds rest idc.2 (idc.1 :: processed)
        else cleanTasks gen today validExpIds rest idc.2 (idc.1 :: processed)
      | none => cleanTasks gen today validExpIds rest idc.2 (idc.1 :: processed)

/-- `validateAndMigrateAppData` on an input that passed the structure
check (it has `experiments` and `tasks` arrays): the cleaned experiment
list and the cleaned task list (the returned record's remaining fields —
schema version, hidden weeks, settings — do not interact with the tasks
or experiments and are not modelled). -/
def validateAndMigrateAppData (gen : Nat → String) (today : Int)
    (experiments : List RawExperiment) (tasks : List RawTask) :
    List Experiment × List Task :=
  let cleaned := cleanExperiments gen today experiments 0
  (cleaned.1, cleanTasks gen today (cleaned.1.map Experiment.id) tasks cleaned.2 [])

/-- Every task emitted by the sanitization pass has an id outside the
incoming `processed` set, the emitted ids are pairwise distinct, and
every emitted task's `experimentId` is a known experiment id. -/
theorem cleanTasks_invariants (gen : Nat → String) (today : Int)
    (validExpIds : List String) :
    ∀ (raws : List RawTask) (c : Nat) (processed : List String),
      ((cleanTasks gen today validExpIds raws c processed).map Task.id).Nodup ∧
      (∀ x ∈ (cleanTasks gen today validExpIds raws c processed).map Task.id,
        x ∉ processed) ∧
      (∀ t ∈ cleanTasks gen today validExpIds raws c processed,
        t.experimentId ∈ validExpIds) := by
  intro raws
  induction raws with
  | nil =>
    intro c processed
    refine ⟨List.nodup_nil, ?_, ?_⟩
    · intro x hx
      simp [cleanTasks] at hx
    · intro t ht
      simp [cleanTasks] at ht
  | cons t rest ih =>
    intro c processed
    rw [cleanTasks]
    by_cases hdup : (match t.id with
        | some s => (s, c)
        | none => (gen c, c + 1)).1 ∈ processed
    · rw [if_pos hdup]
      obtain ⟨h1, h2, h3⟩ := ih _ processed
      exact ⟨h1, h2, h3⟩
    · rw [if_neg hdup]
      cases hexp : t.experimentId with
      | none =>
        dsimp only
        obtain ⟨h1, h2, h3⟩ := ih _ (_ :: processed)
        refine ⟨h1, ?_, h3⟩
        intro x hx
        have := h2 x hx
        intro hmem
        exact this (List.mem_cons_of_mem _ hmem)
      | some eId =>
        dsimp only
        by_cases hvalid : eId ∈ validExpIds
        · rw [if_pos hvalid]
          obtain ⟨h1, h2, h3⟩ := ih _ ((match t.id with
            | some s => (s, c)
            | none => (gen c, c + 1)).1 :: processed)
          refine ⟨?_, ?_, ?_⟩
          · rw [List.map_cons, List.nodup_cons]
            refine ⟨?_, h1⟩
            intro hmem
            exact (h2 _ hmem) (List.mem_cons_self _ _)
          · intro x hx
            rw [List.map_cons, List.mem_cons] at hx
            rcases hx with hx | hx
            · rw [hx]
              exact hdup
            · intro hmem
              exact (h2 x hx) (List.mem_cons_of_mem _ hmem)
          · intro u hu
            rw [List.mem_cons] at hu
            rcases hu with hu | hu
            · rw [hu]
              exact hvalid
            · exact h3 u hu
        · rw [if_neg hvalid]
          obtain ⟨h1, h2, h3⟩ := ih _ (_ :: processed)
          refine ⟨h1, ?_, h3⟩
          intro x hx
          have := h2 x hx
          intro hmem
          exact this (List.mem_cons_of_mem _ hmem)

/-- Claim C10: on any input with `experiments` and `tasks` arrays, the
migrated data has pairwise distinct task ids (later duplicates dropped)
and every returned task's `experimentId` is the id of some returned
experiment (orphans dropped).  The remaining field guarantees of the
claim — a `dependencies` array, a `weekId`, a boolean `completed` — are
carried by the output record type itself, every field being filled with
the sanitized value or its documented default. -/
theorem C10_validateAndMigrate_invariants (gen : Nat → String) (today : Int)
    (rawExps : List RawExperiment) (rawTasks : List RawTask) :
    (((validateAndMigrateAppData gen today rawExps rawTasks).2).map Task.id).Nodup ∧
    (∀ t ∈ (validateAndMigrateAppData gen today rawExps rawTasks).2,
      t.experimentId ∈
        ((validateAndMigrateAppData gen today rawExps rawTasks).1).map Experiment.id) := by
  unfold validateAndMigrateAppData
  obtain ⟨h1, h2, h3⟩ := cleanTasks_invariants gen today
    (((cleanExperiments gen today rawExps 0).1).map Experiment.id) rawTasks
    (cleanExperiments gen today rawExps 0).2 []
  exact ⟨h1, h3⟩

/-- Witness for C10: a concrete import with one experiment and one task;
the migrated task points at the migrated experiment. -/
theorem C10_validateAndMigrate_invariants_witness :
    (⟨"t", "e", "Untitled Task", "", normalizeToSunday 0, "default", 3, false,
        [], [], [], none, none⟩ : Task).experimentId ∈
      ((validateAndMigrateAppData (fun n => toString n) 0
        [⟨some "e", none, none, none, none, none, none, none, none, none, none, none⟩]
        [⟨some "t", some "e", none, none, none, none, none, false, none, none,
          none, none, none⟩]).1).map Experiment.id :=
  (C10_validateAndMigrate_invariants (fun n => toString n) 0
    [⟨some "e", none, none, none, none, none, none, none, none, none, none, none⟩]
    [⟨some "t", some "e", none, none, none, none, none, false, none, none,
      none, none, none⟩]).2
    ⟨"t", "e", "Untitled Task", "", normalizeToSunday 0, "default", 3, false,
      [], [], [], none, none⟩ (by decide)

/-! ### Cycle guard (claim C1)

`hasCircularDependency` (src/unnamed/part_010 lines 151-184) builds an
adjacency map over all task ids (`Map.set` in a `forEach`, so a later
task with a duplicate id overwrites an earlier one), appends the proposed
dependency to the source task's edge list, and runs a depth-first search
from the source task with a permanent visited set and a transient
recursion stack.  The recursive `isCyclic` visits each node at most once
(it recurses only into unvisited neighbours), so the model gives the
recursion explicit fuel — one unit per nested visit — and starts with
more fuel than there are nodes; the completeness lemma below shows the
fuel is never exhausted. -/

/-- The final adjacency entry for `v` of the `Map` the code builds with
`allTasks.forEach(t => adj.set(t.id, [...t.dependencies]))`: the
dependency list of the last task with id `v`, or `[]` (`adj.get(x) || []`)
when no task has that id. -/
def buildAdj (tasks : List Task) (v : String) : List String :=
  match tasks.reverse.find? (fun t => t.id == v) with
  | some t => t.dependencies
  | none => []

/-- The adjacency function after the hypothetical edge
`taskId -> newDependencyId` is appended
(`adj.set(taskId, [...currentDeps, newDependencyId])`). -/
def adjWith (tasks : List Task) (taskId newDependencyId : String)
    (v : String) : List String :=
  if v = taskId then buildAdj tasks taskId ++ [newDependencyId]
  else buildAdj tasks v

/-- Every node the search can ever touch: the two argument ids, every
task id and every dependency id. -/
def univList (tasks : List Task) (taskId newDependencyId : String) :
    List String :=
  taskId :: newDependencyId :: (tasks.map Task.id ++ tasks.flatMap Task.dependencies)

/-- The neighbour scan of `isCyclic`.  `visited` and `stack` are the two
sets of the source; `ns` is the remaining neighbour list of the node on
top of `stack`.  The returned list is the visited set after the scan
(the source mutates it in place).  A fresh neighbour costs one unit of
fuel; at fuel 0 the model returns `(false, visited)`, a state the
lemmas below prove unreachable from the top-level call. -/
def dfsScan (adj : String → List String) (fuel : Nat)
    (visited stack ns : List String) : Bool × List String :=
  match ns with
  | [] => (false, visited)
  | n :: rest =>
    if n ∈ visited then
      if n ∈ stack then (true, visited)
      else dfsScan adj fuel visited stack rest
    else
      match fuel with
      | 0 => (false, visited)
      | fuel' + 1 =>
        match dfsScan adj fuel' (n :: visited) (n :: stack) (adj n) with
        | (true, v) => (true, v)
        | (false, v) => dfsScan adj (fuel' + 1) v stack rest
termination_by (fuel, ns.length)
decreasing_by
  all_goals first
    | (apply Prod.Lex.left
       omega)
    | (apply Prod.Lex.right
       simp only [List.length_cons]
       omega)

/-- `hasCircularDependency(allTasks, taskId, newDependencyId)`: true on a
self-loop, otherwise the result of `isCyclic(taskId)`, which marks
`taskId` visited and on-stack and scans its (augmented) neighbour
list. -/
def hasCircularDependency (tasks : List Task)
    (taskId newDependencyId : String) : Bool :=
  if taskId = newDependencyId then true
  else
    (dfsScan (adjWith tasks taskId newDependencyId)
      ((univList tasks taskId newDependencyId).length + 1)
      [taskId] [taskId]
      (adjWith tasks taskId newDependencyId taskId)).1

/-- The edge relation of the adjacency function: edges point from a task
to the tasks it depends on. -/
def Edge (adj : String → List String) (a b : String) : Prop := b ∈ adj a

/-- A directed cycle is reachable from `root`: some node reachable from
`root` lies on a (non-empty) directed cycle. -/
def CycleReachableFrom (adj : String → List String) (root : String) : Prop :=
  ∃ v, Relation.ReflTransGen (Edge adj) root v ∧
    Relation.TransGen (Edge adj) v v

theorem dfsScan_nil (adj : String → List String) (fuel : Nat)
    (visited stack : List String) :
    dfsScan adj fuel visited stack [] = (false, visited) := by
  rw [dfsScan.eq_def]

theorem dfsScan_cons_hit (adj : String → List String) (fuel : Nat)
    (visited stack : List String) (n : String) (rest : List String)
    (hv : n ∈ visited) (hs : n ∈ stack) :
    dfsScan adj fuel visited stack (n :: rest) = (true, visited) := by
  rw [dfsScan.eq_def]
  dsimp only
  rw [if_pos hv, if_pos hs]

theorem dfsScan_cons_skip (adj : String → List String) (fuel : Nat)
    (visited stack : List String) (n : String) (rest : List String)
    (hv : n ∈ visited) (hs : n ∉ stack) :
    dfsScan adj fuel visited stack (n :: rest) =
      dfsScan adj fuel visited stack rest := by
  rw [dfsScan.eq_def]
  dsimp only
  rw [if_pos hv, if_neg hs]

theorem dfsScan_cons_empty (adj : String → List String)
    (visited stack : List String) (n : String) (rest : List String)
    (hv : n ∉ visited) :
    dfsScan adj 0 visited stack (n :: rest) = (false, visited) := by
  rw [dfsScan.eq_def]
  dsimp only
  rw [if_neg hv]

theorem dfsScan_cons_descend_true (adj : String → List String) (fuel' : Nat)
    (visited stack : List String) (n : String) (rest : List String)
    (v : List String) (hv : n ∉ visited)
    (hchild : dfsScan adj fuel' (n :: visited) (n :: stack) (adj n) = (true, v)) :
    dfsScan adj (fuel' + 1) visited stack (n :: rest) = (true, v) := by
  rw [dfsScan.eq_def]
  dsimp only
  rw [if_neg hv]
  rw [hchild]

theorem dfsScan_cons_descend_false (adj : String → List String) (fuel' : Nat)
    (visited stack : List String) (n : String) (rest : List String)
    (v : List String) (hv : n ∉ visited)
    (hchild : dfsScan adj fuel' (n :: visited) (n :: stack) (adj n) = (false, v)) :
    dfsScan adj (fuel' + 1) visited stack (n :: rest) =
      dfsScan adj (fuel' + 1) v stack rest := by
  rw [dfsScan.eq_def]
  dsimp only
  rw [if_neg hv]
  rw [hchild]

/-- Soundness invariant of the recursion stack: every stack entry is
reachable from the root and reaches the node on top of the stack. -/
def StackReach (adj : String → List String) (root curr : String)
    (srest : List String) : Prop :=
  ∀ x ∈ curr :: srest,
    Relation.ReflTransGen (Edge adj) root x ∧
      Relation.ReflTransGen (Edge adj) x curr

/-- Soundness: whenever the scan reports a hit, the graph really has a
directed cycle reachable from the root (for any amount of fuel). -/
theorem dfsScan_true_sound (adj : String → List String) (root : String) :
    ∀ (fuel : Nat) (ns visited : List String) (curr : String)
      (srest : List String),
      (∀ n ∈ ns, Edge adj curr n) →
      StackReach adj root curr srest →
      (dfsScan adj fuel visited (curr :: srest) ns).1 = true →
      CycleReachableFrom adj root := by
  intro fuel
  induction fuel using Nat.strong_induction_on with
  | _ fuel ihf =>
    intro ns
    induction ns with
    | nil =>
      intro visited curr srest hns hstack htrue
      rw [dfsScan_nil] at htrue
      simp at htrue
    | cons n rest ihns =>
      intro visited curr srest hns hstack htrue
      by_cases hv : n ∈ visited
      · by_cases hs : n ∈ curr :: srest
        · obtain ⟨hroot, hcurr⟩ := hstack n hs
          exact ⟨n, hroot,
            Relation.TransGen.tail' hcurr (hns n (List.mem_cons_self n rest))⟩
        · rw [dfsScan_cons_skip adj fuel visited _ n rest hv hs] at htrue
          exact ihns visited curr srest
            (fun m hm => hns m (List.mem_cons_of_mem n hm)) hstack htrue
      · cases fuel with
        | zero =>
          rw [dfsScan_cons_empty adj visited _ n rest hv] at htrue
          simp at htrue
        | succ fuel' =>
          have hedge : Edge adj curr n := hns n (List.mem_cons_self n rest)
          cases hchild : dfsScan adj fuel' (n :: visited)
              (n :: curr :: srest) (adj n) with
          | mk b v =>
            cases b with
            | true =>
              have hstack' : StackReach adj root n (curr :: srest) := by
                intro x hx
                rcases List.mem_cons.mp hx with rfl | hx
                · exact ⟨((hstack curr (List.mem_cons_self curr srest)).1).tail
                    hedge, Relation.ReflTransGen.refl⟩
                · obtain ⟨hr, hc⟩ := hstack x hx
                  exact ⟨hr, hc.tail hedge⟩
              apply ihf fuel' (Nat.lt_succ_self fuel') (adj n) (n :: visited) n
                (curr :: srest) (fun m hm => hm) hstack'
              rw [hchild]
            | false =>
              rw [dfsScan_cons_descend_false adj fuel' visited _ n rest v hv
                hchild] at htrue
              exact ihns v curr srest
                (fun m hm => hns m (List.mem_cons_of_mem n hm)) hstack htrue

/-- Nodes outside the stack with all successors outside the stack stay
outside the stack along any walk. -/
theorem black_closed_reach (adj : String → List String) (V S : List String)
    (hcl : ∀ b ∈ V, b ∉ S → ∀ w ∈ adj b, w ∈ V ∧ w ∉ S)
    {x y : String} (hx : x ∈ V ∧ x ∉ S)
    (hr : Relation.ReflTransGen (Edge adj) x y) : y ∈ V ∧ y ∉ S := by
  induction hr with
  | refl => exact hx
  | tail hab hbc ih => exact hcl _ ih.1 ih.2 _ hbc

/-- Completeness postcondition: a `false` scan result can only happen
with fuel to spare; it grows the visited set, leaves every scanned
neighbour visited and off the stack, and preserves the invariants that
visited off-stack ("black") nodes have only black successors and lie on
no directed cycle. -/
theorem dfsScan_false_post (adj : String → List String) (U : Finset String)
    (hadj : ∀ v w, w ∈ adj v → w ∈ U) :
    ∀ (fuel : Nat) (ns visited stack v' : List String),
      (U \ visited.toFinset).card ≤ fuel →
      (∀ n ∈ ns, n ∈ U) →
      (∀ x ∈ stack, x ∈ visited) →
      (∀ b ∈ visited, b ∉ stack → ∀ w ∈ adj b, w ∈ visited ∧ w ∉ stack) →
      (∀ b ∈ visited, b ∉ stack → ¬ Relation.TransGen (Edge adj) b b) →
      dfsScan adj fuel visited stack ns = (false, v') →
      (∀ x ∈ visited, x ∈ v') ∧
      (∀ n ∈ ns, n ∈ v' ∧ n ∉ stack) ∧
      (∀ x ∈ stack, x ∈ v') ∧
      (∀ b ∈ v', b ∉ stack → ∀ w ∈ adj b, w ∈ v' ∧ w ∉ stack) ∧
      (∀ b ∈ v', b ∉ stack → ¬ Relation.TransGen (Edge adj) b b) := by
  intro fuel
  induction fuel using Nat.strong_induction_on with
  | _ fuel ihf =>
    intro ns
    induction ns with
    | nil =>
      intro visited stack v' hcard hns hsv hcl hacyc heq
      rw [dfsScan_nil] at heq
      have hvis : visited = v' := congrArg Prod.snd heq
      subst hvis
      exact ⟨fun x hx => hx, by simp, hsv, hcl, hacyc⟩
    | cons n rest ihns =>
      intro visited stack v' hcard hns hsv hcl hacyc heq
      by_cases hv : n ∈ visited
      · by_cases hs : n ∈ stack
        · rw [dfsScan_cons_hit adj fuel visited stack n rest hv hs] at heq
          exact absurd (congrArg Prod.fst heq) (by simp)
        · rw [dfsScan_cons_skip adj fuel visited stack n rest hv hs] at heq
          obtain ⟨p1, p2, p3, p4, p5⟩ := ihns visited stack v' hcard
            (fun m hm => hns m (List.mem_cons_of_mem n hm)) hsv hcl hacyc heq
          refine ⟨p1, ?_, p3, p4, p5⟩
          intro m hm
          rcases List.mem_cons.mp hm with rfl | hm
          · exact ⟨p1 m hv, hs⟩
          · exact p2 m hm
      · have hnU : n ∈ U := hns n (List.mem_cons_self n rest)
        have hmemdiff : n ∈ U \ visited.toFinset :=
          Finset.mem_sdiff.mpr ⟨hnU, by simpa using hv⟩
        cases fuel with
        | zero =>
          exfalso
          have hpos : 0 < (U \ visited.toFinset).card :=
            Finset.card_pos.mpr ⟨n, hmemdiff⟩
          omega
        | succ fuel' =>
          cases hchild : dfsScan adj fuel' (n :: visited) (n :: stack)
              (adj n) with
          | mk b v =>
            cases b with
            | true =>
              rw [dfsScan_cons_descend_true adj fuel' visited stack n rest v
                hv hchild] at heq
              exact absurd (congrArg Prod.fst heq) (by simp)
            | false =>
              have hcard' : (U \ (n :: visited).toFinset).card ≤ fuel' := by
                have hset : U \ (n :: visited).toFinset =
                    (U \ visited.toFinset).erase n := by
                  rw [List.toFinset_cons, Finset.sdiff_insert]
                rw [hset, Finset.card_erase_of_mem hmemdiff]
                omega
              have hsv' : ∀ x ∈ n :: stack, x ∈ n :: visited := by
                intro x hx
                rcases List.mem_cons.mp hx with rfl | hx
                · exact List.mem_cons_self _ _
                · exact List.mem_cons_of_mem _ (hsv x hx)
              have hcl' : ∀ b ∈ n :: visited, b ∉ n :: stack →
                  ∀ w ∈ adj b, w ∈ n :: visited ∧ w ∉ n :: stack := by
                intro b hb hbs w hw
                have hbn : b ≠ n := fun h => hbs (h ▸ List.mem_cons_self n stack)
                have hbv : b ∈ visited := by
                  rcases List.mem_cons.mp hb with h | h
                  · exact absurd h hbn
                  · exact h
                have hbs' : b ∉ stack := fun h => hbs (List.mem_cons_of_mem n h)
                obtain ⟨hw1, hw2⟩ := hcl b hbv hbs' w hw
                refine ⟨List.mem_cons_of_mem n hw1, ?_⟩
                intro hwns
                rcases List.mem_cons.mp hwns with rfl | hwn
                · exact hv hw1
                · exact hw2 hwn
              have hacyc' : ∀ b ∈ n :: visited, b ∉ n :: stack →
                  ¬ Relation.TransGen (Edge adj) b b := by
                intro b hb hbs
                have hbn : b ≠ n := fun h => hbs (h ▸ List.mem_cons_self n stack)
                have hbv : b ∈ visited := by
                  rcases List.mem_cons.mp hb with h | h
                  · exact absurd h hbn
                  · exact h
                have hbs' : b ∉ stack := fun h => hbs (List.mem_cons_of_mem n h)
                exact hacyc b hbv hbs'
              obtain ⟨q1, q2, q3, q4, q5⟩ := ihf fuel' (Nat.lt_succ_self fuel')
                (adj n) (n :: visited) (n :: stack) v hcard'
                (fun m hm => hadj n m hm) hsv' hcl' hacyc' hchild
              have hnv : n ∈ v := q1 n (List.mem_cons_self n visited)
              have hnstack : n ∉ stack := fun h => hv (hsv n h)
              have hclv : ∀ b ∈ v, b ∉ stack →
                  ∀ w ∈ adj b, w ∈ v ∧ w ∉ stack := by
                intro b hb hbs w hw
                by_cases hbn : b = n
                · subst hbn
                  obtain ⟨hw1, hw2⟩ := q2 w hw
                  exact ⟨hw1, fun h => hw2 (List.mem_cons_of_mem b h)⟩
                · have hbns : b ∉ n :: stack := by
                    intro h
                    rcases List.mem_cons.mp h with h | h
                    · exact hbn h
                    · exact hbs h
                  obtain ⟨hw1, hw2⟩ := q4 b hb hbns w hw
                  exact ⟨hw1, fun h => hw2 (List.mem_cons_of_mem n h)⟩
              have hacycv : ∀ b ∈ v, b ∉ stack →
                  ¬ Relation.TransGen (Edge adj) b b := by
                intro b hb hbs hcyc
                by_cases hbn : b = n
                · subst hbn
                  obtain ⟨w, hw, hwr⟩ := (Relation.TransGen.head'_iff).mp hcyc
                  have hwb : w ∈ v ∧ w ∉ b :: stack := q2 w hw
                  have hres := black_closed_reach adj v (b :: stack) q4 hwb hwr
                  exact hres.2 (List.mem_cons_self b stack)
                · have hbns : b ∉ n :: stack := by
                    intro h
                    rcases List.mem_cons.mp h with h | h
                    · exact hbn h
                    · exact hbs h
                  exact q5 b hb hbns hcyc
              rw [dfsScan_cons_descend_false adj fuel' visited stack n rest v
                hv hchild] at heq
              have hcardv : (U \ v.toFinset).card ≤ fuel' + 1 := by
                have hsub : U \ v.toFinset ⊆ U \ visited.toFinset := by
                  intro x hx
                  rw [Finset.mem_sdiff] at hx ⊢
                  refine ⟨hx.1, ?_⟩
                  intro hmem
                  exact hx.2 (List.mem_toFinset.mpr
                    (q1 x (List.mem_cons_of_mem n (List.mem_toFinset.mp hmem))))
                exact le_trans (Finset.card_le_card hsub) hcard
              obtain ⟨r1, r2, r3, r4, r5⟩ := ihns v stack v' hcardv
                (fun m hm => hns m (List.mem_cons_of_mem n hm))
                (fun x hx => q3 x (List.mem_cons_of_mem n hx)) hclv hacycv heq
              refine ⟨?_, ?_, r3, r4, r5⟩
              · intro x hx
                exact r1 x (q1 x (List.mem_cons_of_mem n hx))
              · intro m hm
                rcases List.mem_cons.mp hm with rfl | hm
                · exact ⟨r1 m hnv, hnstack⟩
                · exact r2 m hm

/-- Every edge target of the (augmented) adjacency function is in the
universe of node ids. -/
theorem adjWith_closure (tasks : List Task) (taskId newDependencyId : String) :
    ∀ v w, w ∈ adjWith tasks taskId newDependencyId v →
      w ∈ (univList tasks taskId newDependencyId).toFinset := by
  have hbuild : ∀ v w, w ∈ buildAdj tasks v →
      w ∈ tasks.flatMap Task.dependencies := by
    intro v w hw
    unfold buildAdj at hw
    cases hfind : tasks.reverse.find? (fun t => t.id == v) with
    | none =>
      rw [hfind] at hw
      simp at hw
    | some t =>
      rw [hfind] at hw
      have ht : t ∈ tasks.reverse := List.mem_of_find?_eq_some hfind
      rw [List.mem_reverse] at ht
      exact List.mem_flatMap.mpr ⟨t, ht, hw⟩
  intro v w hw
  rw [List.mem_toFinset]
  unfold univList
  unfold adjWith at hw
  by_cases hv : v = taskId
  · rw [if_pos hv] at hw
    rcases List.mem_append.mp hw with hw | hw
    · exact List.mem_cons_of_mem _ (List.mem_cons_of_mem _
        (List.mem_append.mpr (Or.inr (hbuild _ _ hw))))
    · rw [List.mem_singleton] at hw
      rw [hw]
      exact List.mem_cons_of_mem _ (List.mem_cons_self _ _)
  · rw [if_neg hv] at hw
    exact List.mem_cons_of_mem _ (List.mem_cons_of_mem _
      (List.mem_append.mpr (Or.inr (hbuild _ _ hw))))

/-- The diamond fixture of the spec: A depends on B and on C, no edge
between B and C. -/
def diamondTasks : List Task :=
  [mkFixtureTask "A" "e" ["B", "C"] false, mkFixtureTask "B" "e" [] false,
    mkFixtureTask "C" "e" [] false]

/-- Claim C1: `hasCircularDependency(allTasks, taskId, cand)` returns
true exactly when `taskId = cand` or the dependency graph with the edge
`taskId -> cand` hypothetically added has a directed cycle reachable from
`taskId`; and on the diamond fixture the proposal B -> C is accepted
(returns false, no false positive). -/
theorem C1_hasCircularDependency_iff :
    (∀ (tasks : List Task) (taskId newDependencyId : String),
      hasCircularDependency tasks taskId newDependencyId = true ↔
        taskId = newDependencyId ∨
          CycleReachableFrom (adjWith tasks taskId newDependencyId) taskId) ∧
    hasCircularDependency diamondTasks "B" "C" = false := by
  constructor
  · intro tasks taskId newDependencyId
    unfold hasCircularDependency
    by_cases heq : taskId = newDependencyId
    · rw [if_pos heq]
      exact ⟨fun _ => Or.inl heq, fun _ => rfl⟩
    · rw [if_neg heq]
      constructor
      · intro htrue
        refine Or.inr ?_
        refine dfsScan_true_sound (adjWith tasks taskId newDependencyId) taskId
          ((univList tasks taskId newDependencyId).length + 1)
          (adjWith tasks taskId newDependencyId taskId) [taskId] taskId []
          (fun m hm => hm) ?_ htrue
        intro x hx
        rw [List.mem_singleton] at hx
        rw [hx]
        exact ⟨Relation.ReflTransGen.refl, Relation.ReflTransGen.refl⟩
      · rintro (rfl | hcyc)
        · exact absurd rfl heq
        · cases hres : dfsScan (adjWith tasks taskId newDependencyId)
              ((univList tasks taskId newDependencyId).length + 1)
              [taskId] [taskId]
              (adjWith tasks taskId newDependencyId taskId) with
          | mk b v =>
            cases b with
            | true => rfl
            | false =>
              exfalso
              have hcard : ((univList tasks taskId newDependencyId).toFinset \
                  ([taskId] : List String).toFinset).card ≤
                    (univList tasks taskId newDependencyId).length + 1 := by
                have h1 := Finset.card_le_card
                  (Finset.sdiff_subset :
                    (univList tasks taskId newDependencyId).toFinset \
                      ([taskId] : List String).toFinset ⊆ _)
                have h2 := List.toFinset_card_le
                  (univList tasks taskId newDependencyId)
                omega
              obtain ⟨p1, p2, p3, p4, p5⟩ := dfsScan_false_post
                (adjWith tasks taskId newDependencyId)
                (univList tasks taskId newDependencyId).toFinset
                (adjWith_closure tasks taskId newDependencyId)
                ((univList tasks taskId newDependencyId).length + 1)
                (adjWith tasks taskId newDependencyId taskId)
                [taskId] [taskId] v hcard
                (fun n hn => adjWith_closure tasks taskId newDependencyId
                  taskId n hn)
                (fun x hx => hx)
                (fun b hb hbs => absurd hb hbs)
                (fun b hb hbs => absurd hb hbs)
                hres
              obtain ⟨vv, hreach, hvcyc⟩ := hcyc
              rcases Relation.ReflTransGen.cases_head hreach with heqv | ⟨w, hw, hwv⟩
              · subst heqv
                obtain ⟨w, hw, hwr⟩ := (Relation.TransGen.head'_iff).mp hvcyc
                have hwb : w ∈ v ∧ w ∉ ([taskId] : List String) := p2 w hw
                have hvvb := black_closed_reach
                  (adjWith tasks taskId newDependencyId) v [taskId] p4 hwb hwr
                exact hvvb.2 (List.mem_singleton.mpr rfl)
              · have hwb : w ∈ v ∧ w ∉ ([taskId] : List String) := p2 w hw
                have hvvb := black_closed_reach
                  (adjWith tasks taskId newDependencyId) v [taskId] p4 hwb hwv
                exact p5 vv hvvb.1 hvvb.2 hvcyc
  · show hasCircularDependency diamondTasks "B" "C" = false
    unfold hasCircularDependency
    rw [if_neg (by decide)]
    show (dfsScan (adjWith diamondTasks "B" "C") (7 + 1)
      ["B"] ["B"] ["C"]).1 = false
    have hchild : dfsScan (adjWith diamondTasks "B" "C") 7 ["C", "B"]
        ["C", "B"] (adjWith diamondTasks "B" "C" "C") = (false, ["C", "B"]) := by
      have hadjC : adjWith diamondTasks "B" "C" "C" = [] := by decide
      rw [hadjC, dfsScan_nil]
    rw [dfsScan_cons_descend_false (adjWith diamondTasks "B" "C") 7
      ["B"] ["B"] "C" [] ["C", "B"] (by decide) hchild]
    rw [dfsScan_nil]

end LabPulse
